import Mathlib

/-!
Verification of `rust-notes`: move semantics of struct values on the stack
versus behind a heap-owning box, after
`src/move_semantics_of_structs_and_boxed_values.rs`.

The two entry points of the source file are embedded directly as Lean
functions.  The ownership discipline the Rust compiler enforces on them
(partial moves for stack composites, whole-value invalidation for boxed
composites) is not itself code under `src/`, so it is modelled from the
spec as an explicit ownership tracker over composite values.
-/

namespace RustNotes

/-- Storage class of a composite value: an inline stack slot, or behind a
single owning heap handle (a box). -/
inductive StorageClass where
  | Stack
  | Heap
deriving DecidableEq, Repr

/-- Per-field move state: a field starts `Owned`; reading it by value
makes it `Moved`. -/
inductive FieldMoveState where
  | Owned
  | Moved
deriving DecidableEq, Repr

/-- Field content: a plain scalar (`i32`) or an exclusively owned handle
to heap data (`Box<i32>`), identified by the integer it holds. -/
inductive Content where
  | scalar (n : Int)
  | handle (n : Int)
deriving DecidableEq, Repr

/-- Dereference a content: for an owned handle this is the `*a` of the
source; a scalar is its own value. -/
def Content.deref : Content → Int
  | .scalar n => n
  | .handle n => n

/-- One named field of a composite, together with its move state. -/
structure FieldInfo where
  name : String
  content : Content
  state : FieldMoveState
deriving DecidableEq, Repr

/-- A composite value: its storage class and its named fields. -/
structure CompositeValue where
  storage_class : StorageClass
  fields : List FieldInfo
deriving DecidableEq, Repr

/-- The single error kind of the tracker, plus a guard for absent
fields. -/
inductive MoveError where
  | UseAfterMove
  | NoSuchField
deriving DecidableEq, Repr

/-- Modelled from the spec: `construct(fields)` builds a composite value
with every field initialized to `Owned`. -/
def construct (sc : StorageClass) (fields : List (String × Content)) : CompositeValue :=
  { storage_class := sc
    fields := fields.map fun p => { name := p.1, content := p.2, state := .Owned } }

/-- Look up the first field with the given name. -/
def findField (v : CompositeValue) (name : String) : Option FieldInfo :=
  v.fields.find? fun f => decide (f.name = name)

/-- Whether some field of the composite has already been moved. -/
def anyMoved (v : CompositeValue) : Bool :=
  v.fields.any fun f => decide (f.state = .Moved)

/-- Mark a field `Moved` when it is the moved field, or when the composite
is heap-resident (whole-value invalidation). -/
def markMoved (sc : StorageClass) (name : String) (f : FieldInfo) : FieldInfo :=
  if f.name = name ∨ sc = .Heap then { f with state := .Moved } else f

/-- Modelled from the spec: `move_field(value, field_name)` requires the
field to exist and be `Owned`; for a `Heap` composite it additionally
requires that no field was previously moved.  It returns the field's
content and the composite with the field marked `Moved` — for `Heap`
composites every field is marked `Moved` (whole-value invalidation). -/
def move_field (v : CompositeValue) (name : String) :
    Except MoveError (Content × CompositeValue) :=
  match findField v name with
  | none => .error .NoSuchField
  | some f =>
    if f.state = .Moved then .error .UseAfterMove
    else if v.storage_class = .Heap ∧ anyMoved v = true then .error .UseAfterMove
    else .ok (f.content, { v with fields := v.fields.map (markMoved v.storage_class name) })

/-- Modelled from the spec: `access_field(value, field_name)` fails with
`UseAfterMove` when the field's state is `Moved`, and otherwise returns
the field's current content. -/
def access_field (v : CompositeValue) (name : String) : Except MoveError Content :=
  match findField v name with
  | none => .error .NoSuchField
  | some f =>
    if f.state = .Moved then .error .UseAfterMove
    else .ok f.content

/-- Modelled from the spec: `drop(value)` releases exactly the fields
still in `Owned` state; the result lists the released fields. -/
def dropReleased (v : CompositeValue) : List FieldInfo :=
  v.fields.filter fun f => decide (f.state = .Owned)

/-- The struct `Foo` of the source: `x: i32`, `y: Box<i32>`; the box is
identified with the integer it owns. -/
structure Foo where
  x : Int
  y : Int
deriving DecidableEq, Repr

/-- Direct embedding of `move_semantics_of_struct_values_on_stack`:
build `Foo { x: 10, y: Box::new(10) }` on the stack, move `y` out into
`a`, read `x` into `b`, return `b`. -/
def move_semantics_of_struct_values_on_stack : Int :=
  let foo : Foo := { x := 10, y := 10 }
  let _a := foo.y
  let b := foo.x
  b

/-- Direct embedding of `move_semantics_of_struct_values_on_heap`:
build `Box::new(Foo { x: 10, y: Box::new(10) })`, move `y` out into `a`
(moving the whole boxed value), return `*a`. -/
def move_semantics_of_struct_values_on_heap : Int :=
  let foo : Foo := { x := 10, y := 10 }
  let a := foo.y
  a

/-- The stack composite of the source, through the tracker:
`Foo { x: 10, y: Box::new(10) }` in an inline stack slot. -/
def fooStack : CompositeValue :=
  construct .Stack [("x", .scalar 10), ("y", .handle 10)]

/-- The heap composite of the source, through the tracker:
the same fields behind one owning heap handle. -/
def fooHeap : CompositeValue :=
  construct .Heap [("x", .scalar 10), ("y", .handle 10)]

/-- The stack entry point as a run of the ownership tracker: construct,
move `y` out, then access `x` and return its value. -/
def stackProgram : Except MoveError Int :=
  match move_field fooStack "y" with
  | .error e => .error e
  | .ok (_, foo1) =>
    match access_field foo1 "x" with
    | .error e => .error e
    | .ok c => .ok c.deref

/-- The heap entry point as a run of the ownership tracker: construct
behind a box, move `y` out, and dereference the moved-out handle. -/
def heapProgram : Except MoveError Int :=
  match move_field fooHeap "y" with
  | .error e => .error e
  | .ok (a, _) => .ok a.deref

/-- The stack composite after `y` has been moved out: `x` stays `Owned`,
`y` is `Moved`. -/
def fooStackMovedY : CompositeValue :=
  { storage_class := .Stack
    fields := [⟨"x", .scalar 10, .Owned⟩, ⟨"y", .handle 10, .Moved⟩] }

/-- The stack composite after both `y` and then `x` have been moved. -/
def fooStackMovedBoth : CompositeValue :=
  { storage_class := .Stack
    fields := [⟨"x", .scalar 10, .Moved⟩, ⟨"y", .handle 10, .Moved⟩] }

/-- The heap composite after `y` has been moved out: whole-value
invalidation marks every field `Moved`. -/
def fooHeapMovedY : CompositeValue :=
  { storage_class := .Heap
    fields := [⟨"x", .scalar 10, .Moved⟩, ⟨"y", .handle 10, .Moved⟩] }

/-- Marking a field moved never changes its name. -/
theorem markMoved_name (sc : StorageClass) (A : String) (f : FieldInfo) :
    (markMoved sc A f).name = f.name := by
  unfold markMoved
  split <;> rfl

/-- Marking preserves the `Moved` state. -/
theorem markMoved_state_of_moved (sc : StorageClass) (A : String) (f : FieldInfo)
    (h : f.state = .Moved) : (markMoved sc A f).state = .Moved := by
  unfold markMoved
  split
  · rfl
  · exact h

/-- The moved field itself always ends up `Moved`. -/
theorem markMoved_self (sc : StorageClass) (A : String) (f : FieldInfo)
    (h : f.name = A) : (markMoved sc A f).state = .Moved := by
  unfold markMoved
  rw [if_pos (Or.inl h)]

/-- On a stack composite, fields other than the moved one are untouched. -/
theorem markMoved_stack_other (A : String) (f : FieldInfo) (h : f.name ≠ A) :
    markMoved .Stack A f = f := by
  unfold markMoved
  rw [if_neg]
  rintro (h1 | h2)
  · exact h h1
  · exact absurd h2 (by decide)

/-- Field lookup in the post-move composite is lookup in the original
composite followed by the marking function. -/
theorem findField_map_markMoved (v : CompositeValue) (A B : String) :
    findField { v with fields := v.fields.map (markMoved v.storage_class A) } B
      = (findField v B).map (markMoved v.storage_class A) := by
  unfold findField
  show (v.fields.map (markMoved v.storage_class A)).find? _ = _
  rw [List.find?_map]
  have hp : ((fun f => decide (f.name = B)) ∘ markMoved v.storage_class A)
      = fun f => decide (f.name = B) := by
    funext f
    simp only [Function.comp_apply, markMoved_name]
  rw [hp]

/-- Characterization of a successful `move_field`: the field was found
and `Owned`, its content is returned, and the result is the original
composite with every field passed through `markMoved`. -/
theorem move_field_eq_ok (v : CompositeValue) (A : String) (c : Content)
    (v' : CompositeValue) (h : move_field v A = .ok (c, v')) :
    ∃ f, findField v A = some f ∧ f.state = .Owned ∧ c = f.content ∧
      v' = { v with fields := v.fields.map (markMoved v.storage_class A) } := by
  unfold move_field at h
  split at h
  · exact absurd h (by simp)
  · next f hf =>
    by_cases hM : f.state = .Moved
    · rw [if_pos hM] at h
      exact absurd h (by simp)
    · rw [if_neg hM] at h
      by_cases hH : v.storage_class = .Heap ∧ anyMoved v = true
      · rw [if_pos hH] at h
        exact absurd h (by simp)
      · rw [if_neg hH] at h
        simp only [Except.ok.injEq, Prod.mk.injEq] at h
        refine ⟨f, hf, ?_, h.1.symm, h.2.symm⟩
        cases hs : f.state
        · rfl
        · exact absurd hs hM

/-- Characterization of a successful `access_field`: the field was found
under its name and is `Owned` with the returned content. -/
theorem access_field_eq_ok (v : CompositeValue) (B : String) (cB : Content)
    (h : access_field v B = .ok cB) :
    ∃ g, findField v B = some g ∧ g.state = .Owned ∧ g.content = cB ∧ g.name = B := by
  unfold access_field at h
  split at h
  · exact absurd h (by simp)
  · next g hg =>
    by_cases hM : g.state = .Moved
    · rw [if_pos hM] at h
      exact absurd h (by simp)
    · rw [if_neg hM] at h
      simp only [Except.ok.injEq] at h
      have hname : g.name = B := by
        have hfind : v.fields.find? (fun f => decide (f.name = B)) = some g := hg
        have h2 := List.find?_some hfind
        simpa using h2
      refine ⟨g, hg, ?_, h, hname⟩
      cases hs : g.state
      · rfl
      · exact absurd hs hM

/-- Accessing a field that lookup reports as `Moved` is rejected. -/
theorem access_field_moved (v : CompositeValue) (B : String) (g : FieldInfo)
    (hg : findField v B = some g) (hgM : g.state = .Moved) :
    access_field v B = .error .UseAfterMove := by
  unfold access_field
  rw [hg]
  show (if g.state = .Moved then _ else _) = _
  rw [if_pos hgM]

/-- A field that is `Moved` stays `Moved` across any further successful
`move_field` of any field: accessing it through the original binding is
still rejected. -/
theorem moved_stays_moved (w : CompositeValue) (A B : String) (c : Content)
    (w' : CompositeValue) (g : FieldInfo)
    (hg : findField w A = some g) (hgM : g.state = .Moved)
    (hm : move_field w B = .ok (c, w')) :
    access_field w' A = .error .UseAfterMove := by
  obtain ⟨f, hf, hfO, hc, hw'⟩ := move_field_eq_ok w B c w' hm
  subst hw'
  have hfound : findField { w with fields := w.fields.map (markMoved w.storage_class B) } A
      = some (markMoved w.storage_class B g) := by
    rw [findField_map_markMoved, hg]
    rfl
  exact access_field_moved _ _ _ hfound (markMoved_state_of_moved _ _ _ hgM)

/-- C1: `move_semantics_of_struct_values_on_stack` takes no arguments,
moves `y` out of the stack composite, reads `x`, and returns exactly 10,
the value `x` was constructed with; the tracker accepts the same run. -/
theorem stack_entry_returns_ten :
    move_semantics_of_struct_values_on_stack = 10 ∧
      stackProgram = .ok 10 := by
  constructor <;> rfl

/-- C2: `move_semantics_of_struct_values_on_heap` takes no arguments,
moves `y` out of the boxed composite, dereferences the moved-out handle,
and returns exactly 10; the tracker accepts the same run. -/
theorem heap_entry_returns_ten :
    move_semantics_of_struct_values_on_heap = 10 ∧
      heapProgram = .ok 10 := by
  constructor <;> rfl

/-- C6: neither entry point has a reachable error path: both direct
embeddings are total and the tracker run of each is accepted, producing
`Except.ok` and never an error value. -/
theorem entry_points_no_error_path :
    stackProgram = .ok move_semantics_of_struct_values_on_stack ∧
      heapProgram = .ok move_semantics_of_struct_values_on_heap := by
  constructor <;> rfl

/-- C10: the two entry points are extensionally equal: both return the
same integer. -/
theorem entry_points_agree :
    move_semantics_of_struct_values_on_stack = move_semantics_of_struct_values_on_heap := rfl

/-- C3: for every stack-resident composite, moving field `A` and then
accessing a different, unmoved field `B` succeeds and returns `B`'s
original, unchanged content: the partial move leaves the sibling fields
accessible through the original binding. -/
theorem stack_partial_move_preserves_siblings
    (v : CompositeValue) (A B : String) (cB c : Content) (v' : CompositeValue)
    (hS : v.storage_class = .Stack) (hBA : B ≠ A)
    (hB : access_field v B = .ok cB)
    (hm : move_field v A = .ok (c, v')) :
    access_field v' B = .ok cB := by
  obtain ⟨f, hf, hfO, hc, hv'⟩ := move_field_eq_ok v A c v' hm
  obtain ⟨g, hg, hgO, hgc, hgB⟩ := access_field_eq_ok v B cB hB
  subst hv'
  have hgA : g.name ≠ A := by
    rw [hgB]
    exact hBA
  have hfound : findField { v with fields := v.fields.map (markMoved v.storage_class A) } B
      = some g := by
    rw [findField_map_markMoved, hg]
    show some (markMoved v.storage_class A g) = some g
    rw [hS, markMoved_stack_other A g hgA]
  unfold access_field
  rw [hfound]
  show (if g.state = .Moved then _ else _) = _
  rw [if_neg (by rw [hgO]; exact fun h => FieldMoveState.noConfusion h), hgc]

/-- C3 witness: in the source's stack composite, after moving `y` out,
accessing `x` still returns the scalar 10 it was constructed with. -/
theorem stack_partial_move_preserves_siblings_w :
    access_field fooStackMovedY "x" = .ok (.scalar 10) :=
  stack_partial_move_preserves_siblings fooStack "y" "x" (.scalar 10) (.handle 10)
    fooStackMovedY rfl (by decide) rfl rfl

/-- C4: for every heap-resident composite, moving any single field marks
every field `Moved`, and any subsequent access to any field of the
composite through the original binding is rejected with `UseAfterMove`. -/
theorem heap_move_invalidates_all
    (v : CompositeValue) (A : String) (c : Content) (v' : CompositeValue)
    (hH : v.storage_class = .Heap)
    (hm : move_field v A = .ok (c, v')) :
    (∀ f ∈ v'.fields, f.state = .Moved) ∧
      ∀ B g, findField v' B = some g → access_field v' B = .error .UseAfterMove := by
  obtain ⟨f, hf, hfO, hc, hv'⟩ := move_field_eq_ok v A c v' hm
  have hall : ∀ f2 ∈ v'.fields, f2.state = .Moved := by
    intro f2 hf2
    rw [hv'] at hf2
    have hf2' : f2 ∈ v.fields.map (markMoved v.storage_class A) := hf2
    rw [List.mem_map] at hf2'
    obtain ⟨g0, _, rfl⟩ := hf2'
    unfold markMoved
    rw [if_pos (Or.inr hH)]
  refine ⟨hall, ?_⟩
  intro B g hg
  have hmem : g ∈ v'.fields := by
    have hfind : v'.fields.find? (fun f2 => decide (f2.name = B)) = some g := hg
    exact List.mem_of_find?_eq_some hfind
  exact access_field_moved v' B g hg (hall g hmem)

/-- C4 witness: in the source's boxed composite, after moving `y` out,
accessing either `x` or `y` is rejected with `UseAfterMove`. -/
theorem heap_move_invalidates_all_w :
    access_field fooHeapMovedY "x" = .error .UseAfterMove ∧
      access_field fooHeapMovedY "y" = .error .UseAfterMove :=
  ⟨(heap_move_invalidates_all fooHeap "y" (.handle 10) fooHeapMovedY rfl rfl).2
      "x" ⟨"x", .scalar 10, .Moved⟩ rfl,
    (heap_move_invalidates_all fooHeap "y" (.handle 10) fooHeapMovedY rfl rfl).2
      "y" ⟨"y", .handle 10, .Moved⟩ rfl⟩

/-- C5: for every stack-resident composite, a moved field is `Moved`
permanently for the original binding: accessing it right after the move
is rejected with `UseAfterMove`, and it stays rejected after any further
successful move of any field — no operation returns it to `Owned`. -/
theorem stack_move_is_permanent
    (v : CompositeValue) (A : String) (c : Content) (v' : CompositeValue)
    (_hS : v.storage_class = .Stack)
    (hm : move_field v A = .ok (c, v')) :
    access_field v' A = .error .UseAfterMove ∧
      ∀ B c2 v2, move_field v' B = .ok (c2, v2) →
        access_field v2 A = .error .UseAfterMove := by
  obtain ⟨f, hf, hfO, hc, hv'⟩ := move_field_eq_ok v A c v' hm
  have hname : f.name = A := by
    have hfind : v.fields.find? (fun f2 => decide (f2.name = A)) = some f := hf
    have h2 := List.find?_some hfind
    simpa using h2
  have hfound : findField v' A = some (markMoved v.storage_class A f) := by
    rw [hv', findField_map_markMoved, hf]
    rfl
  have hmoved : (markMoved v.storage_class A f).state = .Moved :=
    markMoved_self v.storage_class A f hname
  constructor
  · exact access_field_moved v' A _ hfound hmoved
  · intro B c2 v2 hm2
    exact moved_stays_moved v' A B c2 v2 _ hfound hmoved hm2

/-- C5 witness: in the source's stack composite, after moving `y` out,
accessing `y` is rejected, and it is still rejected after `x` is also
moved out. -/
theorem stack_move_is_permanent_w :
    access_field fooStackMovedY "y" = .error .UseAfterMove ∧
      access_field fooStackMovedBoth "y" = .error .UseAfterMove :=
  ⟨(stack_move_is_permanent fooStack "y" (.handle 10) fooStackMovedY rfl rfl).1,
    (stack_move_is_permanent fooStack "y" (.handle 10) fooStackMovedY rfl rfl).2
      "x" (.scalar 10) fooStackMovedBoth rfl⟩

/-- C7: immediately after `construct(fields)`, every field is `Owned`,
and accessing any field before any move succeeds and returns exactly the
content the field was constructed with. -/
theorem construct_fields_owned_and_accessible
    (sc : StorageClass) (fields : List (String × Content))
    (name : String) (p : String × Content)
    (hp : fields.find? (fun q => decide (q.1 = name)) = some p) :
    (∀ f ∈ (construct sc fields).fields, f.state = .Owned) ∧
      access_field (construct sc fields) name = .ok p.2 := by
  constructor
  · intro f hf
    have hf' : f ∈ fields.map
        (fun q => ({ name := q.1, content := q.2, state := .Owned } : FieldInfo)) := hf
    rw [List.mem_map] at hf'
    obtain ⟨q, _, rfl⟩ := hf'
    rfl
  · have hfound : findField (construct sc fields) name
        = some { name := p.1, content := p.2, state := .Owned } := by
      unfold findField construct
      show (fields.map _).find? _ = _
      rw [List.find?_map]
      have hq : ((fun f => decide (f.name = name)) ∘
          fun q : String × Content => ({ name := q.1, content := q.2, state := .Owned } : FieldInfo))
          = fun q : String × Content => decide (q.1 = name) := by
        funext q
        rfl
      rw [hq, hp]
      rfl
    unfold access_field
    rw [hfound]
    rfl

/-- C7 witness: on the freshly constructed heap composite of the source,
accessing `x` before any move returns the scalar 10. -/
theorem construct_fields_owned_and_accessible_w :
    access_field fooHeap "x" = .ok (Content.scalar 10) :=
  (construct_fields_owned_and_accessible .Heap [("x", .scalar 10), ("y", .handle 10)]
    "x" ("x", .scalar 10) rfl).2

/-- C8: constructing a composite and immediately dropping it without any
move releases every field exactly once — the released list is exactly the
constructed field list, so nothing is double-released or leaked — and
`drop` only ever releases fields still in the `Owned` state. -/
theorem construct_then_drop_releases_all
    (sc : StorageClass) (fields : List (String × Content)) :
    (dropReleased (construct sc fields)).map (fun f => (f.name, f.content)) = fields ∧
      dropReleased (construct sc fields) = (construct sc fields).fields ∧
      ∀ v f, f ∈ dropReleased v → f.state = .Owned := by
  have hall : dropReleased (construct sc fields) = (construct sc fields).fields := by
    unfold dropReleased
    rw [List.filter_eq_self]
    intro f hf
    have hf' : f ∈ fields.map
        (fun q => ({ name := q.1, content := q.2, state := .Owned } : FieldInfo)) := hf
    rw [List.mem_map] at hf'
    obtain ⟨q, _, rfl⟩ := hf'
    exact decide_eq_true rfl
  refine ⟨?_, hall, ?_⟩
  · rw [hall]
    show (fields.map _).map _ = fields
    rw [List.map_map]
    have hq : ((fun f => (f.name, f.content)) ∘
        fun q : String × Content => ({ name := q.1, content := q.2, state := .Owned } : FieldInfo))
        = fun q : String × Content => (q.1, q.2) := by
      funext q
      rfl
    rw [hq]
    simp
  · intro v f hf
    unfold dropReleased at hf
    rw [List.mem_filter] at hf
    exact of_decide_eq_true hf.2

/-- C8 witness: dropping the freshly constructed stack composite of the
source releases exactly its two fields, once each, and a released field is
in the `Owned` state. -/
theorem construct_then_drop_releases_all_w :
    (dropReleased (construct .Stack [("x", Content.scalar 10), ("y", Content.handle 10)])).map
        (fun f => (f.name, f.content))
      = [("x", Content.scalar 10), ("y", Content.handle 10)] ∧
      (FieldInfo.mk "x" (Content.scalar 10) .Owned).state = .Owned :=
  ⟨(construct_then_drop_releases_all .Stack
      [("x", Content.scalar 10), ("y", Content.handle 10)]).1,
    (construct_then_drop_releases_all .Stack
      [("x", Content.scalar 10), ("y", Content.handle 10)]).2.2
      (construct .Stack [("x", Content.scalar 10), ("y", Content.handle 10)])
      ⟨"x", Content.scalar 10, .Owned⟩ (by decide)⟩

/-- C9: a successful move transfers the field's content unchanged: the
returned content is exactly the content the field held, and dereferencing
it gives the same integer as dereferencing the original. -/
theorem move_field_transfers_content
    (v : CompositeValue) (name : String) (f : FieldInfo) (c : Content)
    (v' : CompositeValue)
    (hf : findField v name = some f) (hm : move_field v name = .ok (c, v')) :
    c = f.content ∧ c.deref = f.content.deref := by
  obtain ⟨g, hg, hgO, hc, hv'⟩ := move_field_eq_ok v name c v' hm
  rw [hg] at hf
  injection hf with hf
  subst hf
  exact ⟨hc, by rw [hc]⟩

/-- C9 witness: in the source's boxed composite, the handle moved out of
field `y` is exactly the constructed `Box::new(10)`, and dereferencing it
yields 10. -/
theorem move_field_transfers_content_w :
    Content.handle 10 = (FieldInfo.mk "y" (Content.handle 10) .Owned).content ∧
      Content.deref (Content.handle 10) = 10 :=
  ⟨(move_field_transfers_content fooHeap "y" ⟨"y", .handle 10, .Owned⟩ (.handle 10)
      fooHeapMovedY rfl rfl).1, rfl⟩

end RustNotes
